import Mathlib

/-!
Shallow embedding of `tool/analyze_packages.py`, a package auditor that
iterates over the entries of a workspace directory, classifies each entry as
a package (presence of a `pubspec.yaml` manifest file), runs a
dependency-fetch command (whose status is ignored) and a static-analysis
command per package, and aggregates analysis failures into a process exit
code.

The external world is modelled explicitly:
* `Workspace.listing` is the result of `os.listdir(packages_dir)`:
  `none` when the directory does not exist (the call raises), otherwise the
  list of entry names.
* `Workspace.fs` maps an entry name to what the filesystem holds at
  `packages_dir/<name>`: a regular file, or a directory optionally holding a
  `pubspec.yaml` manifest, together with the exit codes the two external
  commands would return for that directory.
* Python exceptions are modelled with `Except PyError`.
* Observable behaviour is collected in `RunResult`: the lines printed to
  standard output, the external commands spawned (in order), the accumulated
  `failed` list, and the function's return value (the process exit code).
-/

/-- Contents of a `pubspec.yaml` manifest: readable with the given full text,
or present but unreadable (reading it raises `OSError`). -/
inductive Manifest where
  | readable (content : String) : Manifest
  | unreadable : Manifest
deriving DecidableEq

/-- What the filesystem holds at a workspace entry: a regular file, or a
directory with an optional manifest plus the exit codes that the
dependency-fetch and static-analysis commands would return there. -/
inductive Entry where
  | file : Entry
  | dir (manifest : Option Manifest) (fetchCode : Int) (analyzeCode : Int) : Entry
deriving DecidableEq

/-- A workspace: the `os.listdir` outcome for the packages directory
(`none` = the directory is missing and listing raises) and the filesystem
content behind each entry name. -/
structure Workspace where
  listing : Option (List String)
  fs : String → Entry

/-- External command invocations, in the order the auditor spawns them.
`fetch true n` is `flutter pub get` in package `n`; `fetch false n` is
`dart pub get`; `analyze n` is `dart analyze --fatal-infos`. -/
inductive Cmd where
  | fetch (flutter : Bool) (pkg : String) : Cmd
  | analyze (pkg : String) : Cmd
deriving DecidableEq

/-- The package a command runs in (its working directory name). -/
def Cmd.pkg : Cmd → String
  | .fetch _ n => n
  | .analyze n => n

/-- Python exceptions that `main` can let escape: `FileNotFoundError` from
`os.listdir` on a missing root, `OSError` from opening or reading a
manifest. -/
inductive PyError where
  | fileNotFound : PyError
  | ioError : PyError
deriving DecidableEq

/-- Observable outcome of a completed run of `main`: printed lines, spawned
commands, the accumulated list of failed package names, and the returned
exit code. -/
structure RunResult where
  lines : List String
  cmds : List Cmd
  failed : List String
  exitCode : Nat
deriving DecidableEq

/-- Python's `≤` on strings: lexicographic comparison of the code-point
sequences (the comparison `sorted` uses). It is equivalent to `≤` of the
linear order on `String` (`pyLE_iff`), but stated on the character lists so
that it evaluates by kernel reduction. -/
def pyLE (a b : String) : Prop := a.data ≤ b.data

instance : DecidableRel pyLE := fun a b =>
  inferInstanceAs (Decidable (a.data ≤ b.data))

/-- The marker substring whose presence in a manifest selects the Flutter
toolchain (`'sdk: flutter' in content`). -/
def flutterMarker : String := "sdk: flutter"

/-- Python's `'sdk: flutter' in content`: substring containment, embedded as
infix of the character lists. -/
def flutterIn (content : String) : Bool :=
  decide (flutterMarker.data <:+: content.data)

/-- `_is_flutter_package`: open the manifest, read it, test for the marker.
An unreadable manifest raises (`.error`). -/
def _is_flutter_package : Manifest → Except PyError Bool
  | .readable c => .ok (flutterIn c)
  | .unreadable => .error .ioError

/-- `os.path.isfile(os.path.join(pkg_path, 'pubspec.yaml'))`: a directory
entry has a manifest file iff it is a directory holding one; no path below a
regular file is a regular file. -/
def hasManifestFile : Entry → Bool
  | .file => false
  | .dir m _ _ => m.isSome

/-- Whether an entry is a directory. -/
def Entry.isDir : Entry → Bool
  | .file => false
  | .dir _ _ _ => true

/-- The progress line printed before a package is processed:
`f'\n--- Analyzing {name} {"(flutter)" if is_flutter else ""} ---'`. -/
def progressLine (name : String) (isFlutter : Bool) : String :=
  "\n--- Analyzing " ++ name ++ " " ++ (if isFlutter then "(flutter)" else "") ++ " ---"

/-- The summary line printed when the failed list is nonempty. -/
def failureLine (failed : List String) : String :=
  "\nFailed packages: " ++ String.intercalate ", " failed

/-- The summary line printed when every analyzed package passed. -/
def successLine : String := "\nAll packages passed analysis."

/-- One iteration of the loop body of `main` for entry `name`: skip when
`pubspec.yaml` is not a regular file there; otherwise read the manifest
(possibly raising), print the progress line, run the toolchain-appropriate
fetch command with `check=False` (status discarded), run the analysis
command, and record `name` when analysis returned non-zero. Returns the
printed lines, the spawned commands, and the names appended to `failed`. -/
def processEntry (fs : String → Entry) (name : String) :
    Except PyError (List String × List Cmd × List String) :=
  match fs name with
  | .file => .ok ([], [], [])
  | .dir none _ _ => .ok ([], [], [])
  | .dir (some .unreadable) _ _ => .error .ioError
  | .dir (some (.readable c)) _ analyzeCode =>
    .ok ([progressLine name (flutterIn c)],
         [Cmd.fetch (flutterIn c) name, Cmd.analyze name],
         if analyzeCode ≠ 0 then [name] else [])

/-- The `for name in sorted(os.listdir(packages_dir))` loop of `main`:
process entries left to right, concatenating outputs; a raised exception
aborts the whole loop. -/
def runLoop (fs : String → Entry) : List String →
    Except PyError (List String × List Cmd × List String)
  | [] => .ok ([], [], [])
  | n :: rest =>
    match processEntry fs n with
    | .error e => .error e
    | .ok (ls, cs, fl) =>
      match runLoop fs rest with
      | .error e => .error e
      | .ok (ls', cs', fl') => .ok (ls ++ ls', cs ++ cs', fl ++ fl')

/-- `main()` (embedded as `main'`, since Lean reserves the name `main`): list the packages directory (raising when it is missing),
visit the entries in sorted order, then print the summary line and return
the exit code: `1` when `failed` is nonempty, `0` otherwise. -/
def main' (w : Workspace) : Except PyError RunResult :=
  match w.listing with
  | none => .error .fileNotFound
  | some names =>
    match runLoop w.fs (List.insertionSort pyLE names) with
    | .error e => .error e
    | .ok (ls, cs, failed) =>
      if failed.isEmpty then
        .ok ⟨ls ++ [successLine], cs, failed, 0⟩
      else
        .ok ⟨ls ++ [failureLine failed], cs, failed, 1⟩

/-- Whether processing entry `e` would add its name to the failed list:
it is classified as a package and its analysis exit code is non-zero. -/
def entryAnalysisFails : Entry → Bool
  | .dir (some _) _ a => decide (a ≠ 0)
  | _ => false

/-- `pyLE` agrees with the linear order on `String`. -/
theorem pyLE_iff (a b : String) : pyLE a b ↔ a ≤ b :=
  String.le_iff_toList_le.symm

instance : IsTotal String pyLE :=
  ⟨fun a b => by
    rcases le_total a b with h | h
    · exact Or.inl ((pyLE_iff a b).mpr h)
    · exact Or.inr ((pyLE_iff b a).mpr h)⟩

instance : IsTrans String pyLE :=
  ⟨fun a b c hab hbc =>
    (pyLE_iff a c).mpr (le_trans ((pyLE_iff a b).mp hab) ((pyLE_iff b c).mp hbc))⟩

/-- Scenario A of the specification: packages `alpha` (manifest, analysis
passes), `beta` (manifest, analysis exits 3) and `notes` (no manifest), with
a stray regular file for every other name. -/
def wsA : Workspace where
  listing := some ["beta", "notes", "alpha"]
  fs := fun n =>
    if n = "alpha" then .dir (some (.readable "name: alpha\n")) 0 0
    else if n = "beta" then .dir (some (.readable "name: beta\n")) 0 3
    else if n = "notes" then .dir none 0 0
    else .file

/-- The progress line that processing entry `n` prints, when it prints one:
only classified packages with a readable manifest produce a line. -/
def lineOf (fs : String → Entry) (n : String) : Option String :=
  match fs n with
  | .dir (some (.readable c)) _ _ => some (progressLine n (flutterIn c))
  | _ => none

/-- The external commands that processing entry `n` spawns: a fetch (variant
chosen by the manifest marker) followed by an analysis for classified
packages, nothing otherwise. -/
def cmdsOf (fs : String → Entry) (n : String) : List Cmd :=
  match fs n with
  | .dir (some (.readable c)) _ _ => [Cmd.fetch (flutterIn c) n, Cmd.analyze n]
  | _ => []

/-- The name that processing entry `n` appends to the failed list, when it
appends one. -/
def failOf (fs : String → Entry) (n : String) : Option String :=
  match fs n with
  | .dir (some (.readable _)) _ a => if a ≠ 0 then some n else none
  | _ => none

/-- Whether entry `e` is a classified package whose manifest read raises. -/
def unreadablePkg : Entry → Bool
  | .dir (some .unreadable) _ _ => true
  | _ => false

theorem filterMap_cons_toList {α β : Type} (g : α → Option β) (a : α) (l : List α) :
    (a :: l).filterMap g = (g a).toList ++ l.filterMap g := by
  cases h : g a <;> simp [List.filterMap_cons, h]

/-- A successful loop iteration produces exactly the observations described
by `lineOf`, `cmdsOf` and `failOf`. -/
theorem processEntry_ok_eq {fs : String → Entry} {n : String}
    {x : List String × List Cmd × List String} (h : processEntry fs n = .ok x) :
    x = ((lineOf fs n).toList, cmdsOf fs n, (failOf fs n).toList) := by
  rcases hfs : fs n with _ | ⟨m, fc, ac⟩
  · simp [processEntry, hfs] at h
    simp [lineOf, cmdsOf, failOf, hfs, ← h]
  · rcases m with _ | m
    · simp [processEntry, hfs] at h
      simp [lineOf, cmdsOf, failOf, hfs, ← h]
    · rcases m with c | _
      · simp [processEntry, hfs] at h
        by_cases hac : ac ≠ 0 <;>
          simp [lineOf, cmdsOf, failOf, hfs, ← h, hac]
      · simp [processEntry, hfs] at h

/-- A loop iteration succeeds exactly when the entry is not a classified
package with an unreadable manifest. -/
theorem processEntry_ok_iff {fs : String → Entry} {n : String} :
    (∃ x, processEntry fs n = .ok x) ↔ unreadablePkg (fs n) = false := by
  rcases hfs : fs n with _ | ⟨m, fc, ac⟩
  · simp [processEntry, hfs, unreadablePkg]
  · rcases m with _ | m
    · simp [processEntry, hfs, unreadablePkg]
    · rcases m with c | _ <;> simp [processEntry, hfs, unreadablePkg]

/-- When the whole loop returns, its outputs are the concatenations of the
per-entry observations, in listing order. -/
theorem runLoop_ok_spec {fs : String → Entry} :
    ∀ {ns : List String} {ls : List String} {cs : List Cmd} {fl : List String},
    runLoop fs ns = .ok (ls, cs, fl) →
    ls = ns.filterMap (lineOf fs) ∧ cs = ns.flatMap (cmdsOf fs) ∧
      fl = ns.filterMap (failOf fs) := by
  intro ns
  induction ns with
  | nil =>
    intro ls cs fl h
    simp [runLoop] at h
    obtain ⟨rfl, rfl, rfl⟩ := h
    simp
  | cons n rest ih =>
    intro ls cs fl h
    simp only [runLoop] at h
    cases hp : processEntry fs n with
    | error e => rw [hp] at h; simp at h
    | ok x =>
      obtain ⟨l₀, c₀, f₀⟩ := x
      rw [hp] at h
      cases hr : runLoop fs rest with
      | error e => rw [hr] at h; simp at h
      | ok y =>
        obtain ⟨ls', cs', fl'⟩ := y
        rw [hr] at h
        simp only [Except.ok.injEq, Prod.mk.injEq] at h
        obtain ⟨h1, h2, h3⟩ := h
        obtain ⟨e1, e2, e3⟩ := ih hr
        have hx := processEntry_ok_eq hp
        simp only [Prod.mk.injEq] at hx
        subst h1 h2 h3 e1 e2 e3
        refine ⟨?_, ?_, ?_⟩
        · rw [filterMap_cons_toList, hx.1]
        · rw [List.flatMap_cons, hx.2.1]
        · rw [filterMap_cons_toList, hx.2.2]

/-- A loop that returned visited every entry without raising. -/
theorem runLoop_ok_processEntry {fs : String → Entry} :
    ∀ {ns : List String} {x : List String × List Cmd × List String},
    runLoop fs ns = .ok x → ∀ n ∈ ns, ∃ y, processEntry fs n = .ok y := by
  intro ns
  induction ns with
  | nil => intro x _ n hn; cases hn
  | cons m rest ih =>
    intro x h n hn
    simp only [runLoop] at h
    cases hp : processEntry fs m with
    | error e => rw [hp] at h; simp at h
    | ok y =>
      rw [hp] at h
      cases hr : runLoop fs rest with
      | error e =>
        rw [hr] at h
        obtain ⟨l₀, c₀, f₀⟩ := y
        simp at h
      | ok z =>
        rcases List.mem_cons.mp hn with rfl | hn'
        · exact ⟨y, hp⟩
        · exact ih hr n hn'

/-- An entry whose iteration raises makes the whole loop raise. -/
theorem runLoop_error_of_mem {fs : String → Entry} :
    ∀ {ns : List String} {n : String} {e : PyError}, n ∈ ns →
    processEntry fs n = .error e → ∃ e', runLoop fs ns = .error e' := by
  intro ns
  induction ns with
  | nil => intro n e hn _; cases hn
  | cons m rest ih =>
    intro n e hn he
    cases hp : processEntry fs m with
    | error e₀ => exact ⟨e₀, by simp only [runLoop, hp]⟩
    | ok y =>
      obtain ⟨l₀, c₀, f₀⟩ := y
      rcases List.mem_cons.mp hn with rfl | hn'
      · rw [hp] at he; cases he
      · obtain ⟨e', hr⟩ := ih hn' he
        exact ⟨e', by simp only [runLoop, hp, hr]⟩

/-- A loop over entries that are all skipped produces nothing. -/
theorem runLoop_skip_all {fs : String → Entry} :
    ∀ {ns : List String}, (∀ n ∈ ns, processEntry fs n = .ok ([], [], [])) →
    runLoop fs ns = .ok ([], [], []) := by
  intro ns
  induction ns with
  | nil => intro _; simp [runLoop]
  | cons m rest ih =>
    intro h
    have hm : processEntry fs m = .ok ([], [], []) := h m (List.mem_cons_self m rest)
    have hr : runLoop fs rest = .ok ([], [], []) :=
      ih fun n hn => h n (List.mem_cons_of_mem m hn)
    simp only [runLoop, hm, hr, List.nil_append]

/-- Characterization of a completed run: the failed list, the commands, the
printed lines and the exit code of `main'`, in terms of the sorted listing
and the per-entry observations. -/
theorem main_ok_spec {w : Workspace} {names : List String} {r : RunResult}
    (hl : w.listing = some names) (h : main' w = .ok r) :
    r.failed = (List.insertionSort pyLE names).filterMap (failOf w.fs) ∧
    r.cmds = (List.insertionSort pyLE names).flatMap (cmdsOf w.fs) ∧
    r.lines = (List.insertionSort pyLE names).filterMap (lineOf w.fs) ++
      [if r.failed.isEmpty then successLine else failureLine r.failed] ∧
    r.exitCode = if r.failed.isEmpty then 0 else 1 := by
  simp only [main', hl] at h
  cases hr : runLoop w.fs (List.insertionSort pyLE names) with
  | error e => rw [hr] at h; simp at h
  | ok x =>
    obtain ⟨ls, cs, fl⟩ := x
    rw [hr] at h
    dsimp only at h
    obtain ⟨e1, e2, e3⟩ := runLoop_ok_spec hr
    by_cases hfl : fl.isEmpty
    · rw [if_pos hfl] at h
      cases h
      refine ⟨e3, e2, ?_, ?_⟩ <;> simp [hfl, e1]
    · rw [if_neg hfl] at h
      cases h
      refine ⟨e3, e2, ?_, ?_⟩ <;> simp [hfl, e1]

/-- A completed run had a completed loop. -/
theorem main_ok_runLoop {w : Workspace} {names : List String} {r : RunResult}
    (hl : w.listing = some names) (h : main' w = .ok r) :
    ∃ x, runLoop w.fs (List.insertionSort pyLE names) = .ok x := by
  simp only [main', hl] at h
  cases hr : runLoop w.fs (List.insertionSort pyLE names) with
  | error e => rw [hr] at h; simp at h
  | ok x => exact ⟨x, rfl⟩

/-- A completed run read every classified manifest without raising. -/
theorem main_ok_readable {w : Workspace} {names : List String} {r : RunResult}
    (hl : w.listing = some names) (h : main' w = .ok r) :
    ∀ n ∈ names, unreadablePkg (w.fs n) = false := by
  intro n hn
  obtain ⟨x, hx⟩ := main_ok_runLoop hl h
  exact processEntry_ok_iff.mp
    (runLoop_ok_processEntry hx n ((List.mem_insertionSort pyLE).mpr hn))

/-- `failOf` can only report the entry's own name. -/
theorem failOf_eq_some {fs : String → Entry} {n m : String}
    (h : failOf fs n = some m) : m = n := by
  rcases hfs : fs n with _ | ⟨mf, fc, ac⟩
  · simp [failOf, hfs] at h
  · rcases mf with _ | mf
    · simp [failOf, hfs] at h
    · rcases mf with c | _
      · by_cases hac : ac ≠ 0 <;> simp [failOf, hfs, hac] at h
        exact h.symm
      · simp [failOf, hfs] at h

/-- On entries whose manifest does not raise, `failOf` reports exactly the
entries whose analysis step fails. -/
theorem failOf_iff_entryAnalysisFails {fs : String → Entry} {n : String}
    (h : unreadablePkg (fs n) = false) :
    failOf fs n = some n ↔ entryAnalysisFails (fs n) = true := by
  rcases hfs : fs n with _ | ⟨mf, fc, ac⟩
  · simp [failOf, entryAnalysisFails, hfs]
  · rcases mf with _ | mf
    · simp [failOf, entryAnalysisFails, hfs]
    · rcases mf with c | _
      · by_cases hac : ac ≠ 0 <;> simp [failOf, entryAnalysisFails, hfs, hac]
      · rw [hfs] at h; simp [unreadablePkg] at h

/-- Every command of an entry's block runs inside that entry. -/
theorem cmdsOf_pkg {fs : String → Entry} {n : String} {c : Cmd}
    (h : c ∈ cmdsOf fs n) : c.pkg = n := by
  rcases hfs : fs n with _ | ⟨mf, fc, ac⟩
  · simp [cmdsOf, hfs] at h
  · rcases mf with _ | mf
    · simp [cmdsOf, hfs] at h
    · rcases mf with cm | _
      · simp only [cmdsOf, hfs, List.mem_cons, List.not_mem_nil, or_false] at h
        rcases h with rfl | rfl <;> rfl
      · simp [cmdsOf, hfs] at h

/-- A `filterMap` whose function only ever returns its argument is a
sublist. -/
theorem filterMap_diag_sublist {g : String → Option String}
    (hg : ∀ a b, g a = some b → b = a) :
    ∀ l : List String, (l.filterMap g).Sublist l := by
  intro l
  induction l with
  | nil => simp
  | cons a l ih =>
    cases hga : g a with
    | none => rw [List.filterMap_cons, hga]; exact ih.cons a
    | some b =>
      rw [List.filterMap_cons, hga, hg a b hga]
      exact ih.cons₂ a

/-- Membership in the failed list of a completed run: exactly the entries of
the listing that are classified packages whose analysis step exits
non-zero. -/
theorem failed_mem_iff {w : Workspace} {names : List String} {r : RunResult}
    (hl : w.listing = some names) (h : main' w = .ok r) {n : String} :
    n ∈ r.failed ↔ n ∈ names ∧ entryAnalysisFails (w.fs n) = true := by
  obtain ⟨hf, _, _, _⟩ := main_ok_spec hl h
  have hread := main_ok_readable hl h
  rw [hf, List.mem_filterMap]
  constructor
  · rintro ⟨a, ha, hfa⟩
    have heq : n = a := failOf_eq_some hfa
    subst heq
    have hmem : n ∈ names := (List.mem_insertionSort pyLE).mp ha
    exact ⟨hmem, (failOf_iff_entryAnalysisFails (hread n hmem)).mp hfa⟩
  · rintro ⟨hmem, hfail⟩
    exact ⟨n, (List.mem_insertionSort pyLE).mpr hmem,
      (failOf_iff_entryAnalysisFails (hread n hmem)).mpr hfail⟩

/-- Membership in the command trace of a completed run: exactly the commands
of the block of their own package, for packages in the listing. -/
theorem mem_cmds_iff {w : Workspace} {names : List String} {r : RunResult}
    (hl : w.listing = some names) (h : main' w = .ok r) {c : Cmd} :
    c ∈ r.cmds ↔ c.pkg ∈ names ∧ c ∈ cmdsOf w.fs c.pkg := by
  obtain ⟨_, hcmds, _, _⟩ := main_ok_spec hl h
  rw [hcmds, List.mem_flatMap]
  constructor
  · rintro ⟨a, ha, hca⟩
    have hpk := cmdsOf_pkg hca
    exact ⟨hpk ▸ (List.mem_insertionSort pyLE).mp ha, hpk ▸ hca⟩
  · rintro ⟨h1, h2⟩
    exact ⟨c.pkg, (List.mem_insertionSort pyLE).mpr h1, h2⟩

/-- The sorted listing of a duplicate-free workspace is strictly
lexicographically increasing. -/
theorem insertionSort_pairwise_lt {names : List String} (hnd : names.Nodup) :
    (List.insertionSort pyLE names).Pairwise (· < ·) := by
  have hs : (List.insertionSort pyLE names).Sorted (· ≤ ·) :=
    (List.sorted_insertionSort pyLE names).imp fun h => (pyLE_iff _ _).mp h
  have hnd' : (List.insertionSort pyLE names).Nodup :=
    (List.perm_insertionSort pyLE names).symm.nodup hnd
  exact hs.lt_of_le hnd'

/-- An analysis failure can only come from a classified package. -/
theorem entryAnalysisFails_manifest {e : Entry}
    (h : entryAnalysisFails e = true) : hasManifestFile e = true := by
  rcases e with _ | ⟨m, fc, ac⟩
  · simp [entryAnalysisFails] at h
  · rcases m with _ | m
    · simp [entryAnalysisFails] at h
    · rfl

/-- An entry without a manifest file spawns no commands. -/
theorem cmdsOf_eq_nil {fs : String → Entry} {name : String}
    (hm : hasManifestFile (fs name) = false) : cmdsOf fs name = [] := by
  rcases hfs : fs name with _ | ⟨m, fc, ac⟩
  · simp [cmdsOf, hfs]
  · rcases m with _ | m
    · simp [cmdsOf, hfs]
    · rw [hfs] at hm; simp [hasManifestFile] at hm

/-- An entry without a manifest file neither fails nor spawns commands in a
completed run. -/
theorem skipped_entry_spec {w : Workspace} {names : List String} {r : RunResult}
    (hl : w.listing = some names) (h : main' w = .ok r)
    {name : String} (hm : hasManifestFile (w.fs name) = false) :
    name ∉ r.failed ∧ ∀ c ∈ r.cmds, Cmd.pkg c ≠ name := by
  constructor
  · intro hmem
    obtain ⟨-, hfail⟩ := (failed_mem_iff hl h).mp hmem
    rw [entryAnalysisFails_manifest hfail] at hm
    cases hm
  · intro c hc hpk
    obtain ⟨-, h2⟩ := (mem_cmds_iff hl h).mp hc
    rw [hpk, cmdsOf_eq_nil hm] at h2
    cases h2

/-- Flattening blocks that are either `[n, n]` or empty equals flattening
over the entries with nonempty blocks. -/
theorem flatMap_pkg_blocks {g : String → List String} :
    ∀ l : List String, (∀ n ∈ l, g n = [n, n] ∨ g n = []) →
    l.flatMap g = (l.filter fun n => !(g n).isEmpty).flatMap (fun n => [n, n]) := by
  intro l
  induction l with
  | nil => intro _; rfl
  | cons a l ih =>
    intro hp
    have ha := hp a (List.mem_cons_self a l)
    have hrest := ih fun n hn => hp n (List.mem_cons_of_mem a hn)
    rcases ha with ha | ha <;>
      simp [List.flatMap_cons, List.filter_cons, ha, hrest]

/-- Scenario B of the specification: a single package `gamma` whose manifest
declares the Flutter SDK dependency and whose analysis passes. -/
def wsB : Workspace where
  listing := some ["gamma"]
  fs := fun n =>
    if n = "gamma" then .dir (some (.readable "environment:\n  sdk: flutter\n")) 0 0
    else .file

/-- A workspace whose packages directory does not exist. -/
def wsNone : Workspace where
  listing := none
  fs := fun _ => .file

/-- A workspace with a single package whose manifest cannot be read. -/
def wsBad : Workspace where
  listing := some ["pkg"]
  fs := fun _ => .dir (some .unreadable) 0 0

/-- A workspace whose only entry is a regular file (no subdirectories). -/
def wsFiles : Workspace where
  listing := some ["README.md"]
  fs := fun _ => .file

/-- The outcome of running the auditor on `wsA`. -/
def resA : RunResult :=
  ⟨["\n--- Analyzing alpha  ---", "\n--- Analyzing beta  ---",
    "\nFailed packages: beta"],
   [.fetch false "alpha", .analyze "alpha", .fetch false "beta", .analyze "beta"],
   ["beta"], 1⟩

/-- The outcome of running the auditor on `wsB`. -/
def resB : RunResult :=
  ⟨["\n--- Analyzing gamma (flutter) ---", successLine],
   [.fetch true "gamma", .analyze "gamma"], [], 0⟩

/-- C1: for every workspace whose run completes, the exit code is `0` iff
the accumulated failed list is empty, and it is `1` iff at least one
classified package in the listing has a non-zero analysis exit status. -/
theorem audit_exit_code_iff {w : Workspace} {names : List String} {r : RunResult}
    (hl : w.listing = some names) (h : main' w = .ok r) :
    (r.exitCode = 0 ↔ r.failed = []) ∧
    (r.exitCode = 1 ↔ ∃ n ∈ names, entryAnalysisFails (w.fs n) = true) := by
  obtain ⟨-, -, -, hc⟩ := main_ok_spec hl h
  have hmem : ∀ n, n ∈ r.failed ↔ n ∈ names ∧ entryAnalysisFails (w.fs n) = true :=
    fun n => failed_mem_iff hl h
  by_cases hE : r.failed.isEmpty
  · have hnil : r.failed = [] := List.isEmpty_iff.mp hE
    rw [hc, if_pos hE]
    refine ⟨by simp [hnil], ?_⟩
    constructor
    · intro h01; exact absurd h01 (by decide)
    · rintro ⟨n, hn, hf⟩
      have : n ∈ r.failed := (hmem n).mpr ⟨hn, hf⟩
      rw [hnil] at this
      cases this
  · have hnil : r.failed ≠ [] := fun hcon => hE (by rw [hcon]; rfl)
    rw [hc, if_neg hE]
    refine ⟨⟨fun h10 => absurd h10 (by decide), fun hfl => absurd hfl hnil⟩, ?_⟩
    constructor
    · intro _
      obtain ⟨n, hn⟩ := List.exists_mem_of_ne_nil r.failed hnil
      obtain ⟨h1, h2⟩ := (hmem n).mp hn
      exact ⟨n, h1, h2⟩
    · intro _
      rfl

/-- C1 witness: the theorem applied to Scenario A. -/
theorem audit_exit_code_iff_witness :
    (resA.exitCode = 0 ↔ resA.failed = []) ∧
    (resA.exitCode = 1 ↔
      ∃ n ∈ ["beta", "notes", "alpha"], entryAnalysisFails (wsA.fs n) = true) :=
  audit_exit_code_iff (w := wsA) rfl rfl

/-- C2: a direct child of the workspace root without a `pubspec.yaml`
manifest file at its top level is never classified as a package: its name
never appears in the failed list and no spawned command runs in it. -/
theorem no_manifest_never_package {w : Workspace} {names : List String}
    {r : RunResult} {name : String}
    (hl : w.listing = some names) (h : main' w = .ok r) (_hmem : name ∈ names)
    (hm : hasManifestFile (w.fs name) = false) :
    name ∉ r.failed ∧ ∀ c ∈ r.cmds, Cmd.pkg c ≠ name :=
  skipped_entry_spec hl h hm

/-- C2 witness: the manifest-less directory `notes` of Scenario A. -/
theorem no_manifest_never_package_witness :
    "notes" ∉ resA.failed ∧ ∀ c ∈ resA.cmds, Cmd.pkg c ≠ "notes" :=
  no_manifest_never_package (w := wsA) rfl rfl (by simp) rfl

/-- Replace the exit status of every dependency-fetch command. -/
def withFetchCodes (f : String → Int) (w : Workspace) : Workspace where
  listing := w.listing
  fs := fun n =>
    match w.fs n with
    | .file => .file
    | .dir m _ a => .dir m (f n) a

/-- C3: the dependency-fetch exit status is discarded — changing every fetch
status arbitrarily leaves the whole observable run unchanged — and
membership in the failed list is determined solely by the analysis step's
exit status being non-zero. -/
theorem fetch_status_discarded (w : Workspace) (f : String → Int) :
    main' (withFetchCodes f w) = main' w ∧
    ∀ names r n, w.listing = some names → main' w = .ok r →
      (n ∈ r.failed ↔ n ∈ names ∧ entryAnalysisFails (w.fs n) = true) := by
  constructor
  · have hpe : ∀ n, processEntry (withFetchCodes f w).fs n = processEntry w.fs n := by
      intro n
      rcases hfs : w.fs n with _ | ⟨m, fc, ac⟩
      · simp [processEntry, withFetchCodes, hfs]
      · rcases m with _ | m
        · simp [processEntry, withFetchCodes, hfs]
        · rcases m with c | _ <;> simp [processEntry, withFetchCodes, hfs]
    have hrl : ∀ ns, runLoop (withFetchCodes f w).fs ns = runLoop w.fs ns := by
      intro ns
      induction ns with
      | nil => rfl
      | cons n rest ih => simp only [runLoop, hpe, ih]
    have hLs : (withFetchCodes f w).listing = w.listing := rfl
    cases hL : w.listing with
    | none => simp only [main', hLs, hL]
    | some names => simp only [main', hLs, hL, hrl]
  · intro names r n hl h
    exact failed_mem_iff hl h

/-- C3 witness: Scenario A with every fetch status replaced by 7. -/
theorem fetch_status_discarded_witness :
    main' (withFetchCodes (fun _ => 7) wsA) = main' wsA ∧
    ("beta" ∈ resA.failed ↔ "beta" ∈ ["beta", "notes", "alpha"] ∧
      entryAnalysisFails (wsA.fs "beta") = true) :=
  ⟨(fetch_status_discarded wsA (fun _ => 7)).1,
   (fetch_status_discarded wsA (fun _ => 7)).2 ["beta", "notes", "alpha"] resA "beta"
     rfl rfl⟩

/-- C7: on a workspace whose root exists but has no subdirectories, the
audit spawns no command, prints exactly the success message, and returns
exit code 0. -/
theorem empty_workspace_succeeds {w : Workspace} {names : List String}
    (hl : w.listing = some names)
    (hnd : ∀ n ∈ names, (w.fs n).isDir = false) :
    main' w = .ok ⟨[successLine], [], [], 0⟩ := by
  have hall : ∀ n ∈ List.insertionSort pyLE names,
      processEntry w.fs n = .ok ([], [], []) := by
    intro n hn
    have hm := hnd n ((List.mem_insertionSort pyLE).mp hn)
    rcases hfs : w.fs n with _ | ⟨m, fc, ac⟩
    · simp [processEntry, hfs]
    · rw [hfs] at hm; simp [Entry.isDir] at hm
  simp [main', hl, runLoop_skip_all hall]

/-- C7 witness: a workspace whose only entry is a regular file. -/
theorem empty_workspace_succeeds_witness :
    main' wsFiles = .ok ⟨[successLine], [], [], 0⟩ :=
  empty_workspace_succeeds (w := wsFiles) rfl (fun _ _ => rfl)

/-- C8: a direct child of the workspace root that is a regular file is
always skipped: the manifest test cannot hold below a regular file, so the
entry never fails and never triggers a command. -/
theorem file_entry_always_skipped {w : Workspace} {names : List String}
    {r : RunResult} {name : String}
    (hl : w.listing = some names) (h : main' w = .ok r)
    (hfs : w.fs name = Entry.file) :
    hasManifestFile Entry.file = false ∧
    name ∉ r.failed ∧ ∀ c ∈ r.cmds, Cmd.pkg c ≠ name :=
  ⟨rfl, skipped_entry_spec hl h (by rw [hfs]; rfl)⟩

/-- C8 witness: the regular-file entry of `wsFiles`. -/
theorem file_entry_always_skipped_witness :
    hasManifestFile Entry.file = false ∧
    "README.md" ∉ (⟨[successLine], [], [], 0⟩ : RunResult).failed ∧
    ∀ c ∈ (⟨[successLine], [], [], 0⟩ : RunResult).cmds, Cmd.pkg c ≠ "README.md" :=
  file_entry_always_skipped (w := wsFiles) rfl rfl rfl

/-- C9: a missing workspace root, or a classified package whose manifest
cannot be read, makes `main` propagate the exception: the run ends in
`.error`, which carries no printed summary line and no exit code. -/
theorem missing_root_or_unreadable_manifest_raises (w : Workspace) :
    (w.listing = none → main' w = .error .fileNotFound) ∧
    (∀ names name fc ac, w.listing = some names → name ∈ names →
      w.fs name = .dir (some .unreadable) fc ac → ∃ e, main' w = .error e) := by
  constructor
  · intro hl; simp [main', hl]
  · intro names name fc ac hl hmem hfs
    have hpe : processEntry w.fs name = .error .ioError := by
      simp [processEntry, hfs]
    obtain ⟨e', hr⟩ :=
      runLoop_error_of_mem ((List.mem_insertionSort pyLE).mpr hmem) hpe
    exact ⟨e', by simp [main', hl, hr]⟩

/-- C9 witness: a missing root and an unreadable manifest. -/
theorem missing_root_or_unreadable_manifest_raises_witness :
    main' wsNone = .error .fileNotFound ∧ ∃ e, main' wsBad = .error e :=
  ⟨(missing_root_or_unreadable_manifest_raises wsNone).1 rfl,
   (missing_root_or_unreadable_manifest_raises wsBad).2 ["pkg"] "pkg" 0 0 rfl
     (List.mem_singleton.mpr rfl) rfl⟩

/-- C4: over a duplicate-free listing, a completed run visits its packages
in strictly lexicographic order of directory name — the command trace is a
fetch-then-analyze block per package, with the package names strictly
increasing — and any second run over the unchanged workspace produces the
identical outcome. -/
theorem packages_visited_in_lex_order {w : Workspace} {names : List String}
    {r : RunResult}
    (hl : w.listing = some names) (hnd : names.Nodup) (h : main' w = .ok r) :
    ∃ pkgs : List String, pkgs.Pairwise (· < ·) ∧
      r.cmds.map Cmd.pkg = pkgs.flatMap (fun n => [n, n]) ∧
      ∀ r', main' w = .ok r' → r' = r := by
  obtain ⟨-, hcmds, -, -⟩ := main_ok_spec hl h
  have hread := main_ok_readable hl h
  have hblocks : ∀ n ∈ List.insertionSort pyLE names,
      (cmdsOf w.fs n).map Cmd.pkg = [n, n] ∨ (cmdsOf w.fs n).map Cmd.pkg = [] := by
    intro n hn
    rcases hfs : w.fs n with _ | ⟨m, fc, ac⟩
    · right; simp [cmdsOf, hfs]
    · rcases m with _ | m
      · right; simp [cmdsOf, hfs]
      · rcases m with c | _
        · left; simp [cmdsOf, hfs, Cmd.pkg]
        · have := hread n ((List.mem_insertionSort pyLE).mp hn)
          rw [hfs] at this
          simp [unreadablePkg] at this
  refine ⟨(List.insertionSort pyLE names).filter
      (fun n => !((cmdsOf w.fs n).map Cmd.pkg).isEmpty), ?_, ?_, ?_⟩
  · exact (insertionSort_pairwise_lt hnd).filter _
  · rw [hcmds, List.map_flatMap]
    exact flatMap_pkg_blocks _ hblocks
  · intro r' h'
    rw [h] at h'
    exact (Except.ok.inj h').symm

/-- C4 witness: the theorem applied to Scenario A. -/
theorem packages_visited_in_lex_order_witness :
    ∃ pkgs : List String, pkgs.Pairwise (· < ·) ∧
      resA.cmds.map Cmd.pkg = pkgs.flatMap (fun n => [n, n]) ∧
      ∀ r', main' wsA = .ok r' → r' = resA :=
  packages_visited_in_lex_order (w := wsA) rfl (by simp) rfl

/-- C5: the Flutter fetch command is selected for a package iff the full
text of its manifest contains the literal substring `sdk: flutter`;
otherwise the standard fetch command is selected. Toolchain detection is a
pure function of the manifest text. -/
theorem toolchain_detection_pure {w : Workspace} {names : List String}
    {r : RunResult} {name c : String} {fc ac : Int}
    (hl : w.listing = some names) (h : main' w = .ok r) (hmem : name ∈ names)
    (hfs : w.fs name = .dir (some (.readable c)) fc ac) :
    _is_flutter_package (.readable c) = .ok (flutterIn c) ∧
    (flutterIn c = true ↔ flutterMarker.data <:+: c.data) ∧
    (Cmd.fetch true name ∈ r.cmds ↔ flutterMarker.data <:+: c.data) ∧
    (Cmd.fetch false name ∈ r.cmds ↔ ¬ flutterMarker.data <:+: c.data) := by
  have hiff : ∀ b : Bool, Cmd.fetch b name ∈ r.cmds ↔ b = flutterIn c := by
    intro b
    rw [mem_cmds_iff hl h]
    simp [cmdsOf, hfs, hmem, Cmd.pkg]
  refine ⟨rfl, by simp [flutterIn], ?_, ?_⟩
  · rw [hiff true]
    simp [flutterIn, eq_comm]
  · rw [hiff false]
    simp [flutterIn, eq_comm]

/-- C5 witness: the theorem applied to the Flutter package of Scenario B. -/
theorem toolchain_detection_pure_witness :
    _is_flutter_package (.readable "environment:\n  sdk: flutter\n") =
      .ok (flutterIn "environment:\n  sdk: flutter\n") ∧
    (flutterIn "environment:\n  sdk: flutter\n" = true ↔
      flutterMarker.data <:+: "environment:\n  sdk: flutter\n".data) ∧
    (Cmd.fetch true "gamma" ∈ resB.cmds ↔
      flutterMarker.data <:+: "environment:\n  sdk: flutter\n".data) ∧
    (Cmd.fetch false "gamma" ∈ resB.cmds ↔
      ¬ flutterMarker.data <:+: "environment:\n  sdk: flutter\n".data) :=
  toolchain_detection_pure (w := wsB) rfl rfl (by simp) rfl

/-- C6 counterexample: on a workspace with a single package, the completed
run analyzes the package but prints only two lines in total — the one
progress line before the package and the final summary — so no progress
line is printed after the package (before-and-after would need at least
three lines). -/
theorem progress_after_line_cex :
    main' wsB = .ok resB ∧
    resB.cmds = [Cmd.fetch true "gamma", Cmd.analyze "gamma"] ∧
    resB.lines = [progressLine "gamma" true, successLine] ∧
    resB.lines.length < 3 :=
  ⟨rfl, rfl, rfl, by decide⟩

/-- C6 amended: for every package processed, the auditor writes exactly one
progress line before it (with the toolchain marker when applicable) and
none after it; the output is those per-package lines in visiting order
followed by a single summary line that lists the failed names
comma-separated or confirms success. -/
theorem output_lines_contract {w : Workspace} {names : List String}
    {r : RunResult} {name c : String} {fc ac : Int}
    (hl : w.listing = some names) (h : main' w = .ok r)
    (hfs : w.fs name = .dir (some (.readable c)) fc ac) :
    r.lines = (List.insertionSort pyLE names).filterMap (lineOf w.fs) ++
      [if r.failed.isEmpty then successLine else failureLine r.failed] ∧
    lineOf w.fs name = some (progressLine name (flutterIn c)) := by
  obtain ⟨-, -, hlines, -⟩ := main_ok_spec hl h
  exact ⟨hlines, by simp [lineOf, hfs]⟩

/-- C6 amended witness: the theorem applied to Scenario B. -/
theorem output_lines_contract_witness :
    resB.lines = (List.insertionSort pyLE ["gamma"]).filterMap (lineOf wsB.fs) ++
      [if resB.failed.isEmpty then successLine else failureLine resB.failed] ∧
    lineOf wsB.fs "gamma" =
      some (progressLine "gamma" (flutterIn "environment:\n  sdk: flutter\n")) :=
  output_lines_contract (w := wsB) rfl rfl rfl

/-- C10: over a duplicate-free listing, the failed list of a completed run
is a duplicate-free subsequence of the lexicographically sorted listing —
each failing name appears once, in strictly lexicographic order — and when
nonempty, the final printed line is the summary listing exactly those
names. -/
theorem result_set_sorted_subseq {w : Workspace} {names : List String}
    {r : RunResult}
    (hl : w.listing = some names) (hnd : names.Nodup) (h : main' w = .ok r) :
    r.failed.Nodup ∧ r.failed.Sublist (List.insertionSort pyLE names) ∧
    r.failed.Pairwise (· < ·) ∧
    (r.failed ≠ [] → r.lines.getLast? = some (failureLine r.failed)) := by
  obtain ⟨hf, -, hlines, -⟩ := main_ok_spec hl h
  have hsub : r.failed.Sublist (List.insertionSort pyLE names) := by
    rw [hf]
    exact filterMap_diag_sublist (fun a b hab => failOf_eq_some hab) _
  have hnd' : (List.insertionSort pyLE names).Nodup :=
    (List.perm_insertionSort pyLE names).symm.nodup hnd
  refine ⟨hnd'.sublist hsub, hsub, (insertionSort_pairwise_lt hnd).sublist hsub, ?_⟩
  intro hne
  have hE : ¬ r.failed.isEmpty = true := fun hcon => hne (List.isEmpty_iff.mp hcon)
  rw [hlines, if_neg hE]
  exact List.getLast?_concat _

/-- C10 witness: the theorem applied to Scenario A. -/
theorem result_set_sorted_subseq_witness :
    resA.failed.Nodup ∧
    resA.failed.Sublist (List.insertionSort pyLE ["beta", "notes", "alpha"]) ∧
    resA.failed.Pairwise (· < ·) ∧
    (resA.failed ≠ [] → resA.lines.getLast? = some (failureLine resA.failed)) :=
  result_set_sorted_subseq (w := wsA) rfl (by simp) rfl

/-! Sanity checks: the embedding evaluates on the concrete workspaces. -/

example : flutterIn "environment:\n  sdk: flutter\n" = true := by decide

example : flutterIn "name: alpha\n" = false := by decide

example : main' wsA = .ok resA := rfl

example : main' wsB = .ok resB := rfl

example : main' wsFiles = .ok ⟨[successLine], [], [], 0⟩ := rfl

example : main' wsNone = .error .fileNotFound := rfl

example : main' wsBad = .error .ioError := rfl
